import Mathlib

/-!
Shallow embedding of `src/utils/neo4jdownloader.py` (class `Neo4JDownloader`)
and proofs about its subgraph-extraction and edge-retrieval behaviour.

Python dictionaries are insertion-ordered maps with unique keys; they are
modelled as association lists (`List (κ × β)`) together with `alookup`
(first-occurrence lookup, i.e. `d[k]` / `k in d`) and `dinsert`
(`d[k] = v`: replace the first binding in place, else append).
The Neo4j store itself is an external collaborator: each query a method
issues is modelled by the result rows the store hands back, with
`Except String` capturing driver/protocol failures (`DriverError`,
`Neo4jError`) that propagate out of `session.run`.
-/

set_option autoImplicit false

namespace Neo4J

/-- A property map, `dict(n)` / `dict(r)` in the source: string-keyed
values in insertion order (values abstracted as strings). -/
abbrev Props := List (String × String)

/-- A node on a result row: store identity (`n.id`), label set in the
store's iteration order (`n.labels`), property map (`dict(n)`). -/
structure Node where
  id : Nat
  labels : List String
  props : Props
  deriving DecidableEq, Repr

/-- A relationship on a result row: the store's own relationship identity
`rid`, its type name (`r.type`), its endpoint nodes and property map. -/
structure Rel where
  rid : Nat
  type : String
  startNode : Node
  endNode : Node
  props : Props
  deriving DecidableEq, Repr

/-- A path returned by the expansion query: `p.nodes` and `p.relationships`. -/
structure Path where
  nodes : List Node
  relationships : List Rel
  deriving DecidableEq, Repr

/-- One relation-declaration entry: `{"source": ..., "target": ...}`. -/
structure SubDef where
  source : String
  target : String
  deriving DecidableEq, Repr

/-- The caller-supplied relation declaration (`relationships` /
`relationship_dict`): relationship type name → sub-type name → label pair. -/
abbrev Schema := List (String × List (String × SubDef))

/-- First-occurrence lookup in an association list: Python `d[k]` (when it
succeeds) and the membership test `k in d`. -/
def alookup {κ β : Type} [DecidableEq κ] : List (κ × β) → κ → Option β
  | [], _ => none
  | (k', v) :: rest, k => if k' = k then some v else alookup rest k

/-- Python dict assignment `d[k] = v`: replace the first binding of `k` in
place, or append a fresh binding at the end (insertion order). -/
def dinsert {κ β : Type} [DecidableEq κ] : List (κ × β) → κ → β → List (κ × β)
  | [], k, v => [(k, v)]
  | (k', v') :: rest, k, v =>
    if k' = k then (k, v) :: rest else (k', v') :: dinsert rest k v

/-- The tuple appended to `tmp_edges[reltype]` at lines 166-172:
`(r.start_node.id, r.end_node.id, dict(r), list(r.start_node.labels),
list(r.end_node.labels))`. -/
structure RawEdge where
  src : Nat
  dst : Nat
  props : Props
  srcLabels : List String
  dstLabels : List String
  deriving DecidableEq, Repr

/-- Build the `tmp_edges` tuple from a relationship result row. -/
def toRawEdge (r : Rel) : RawEdge :=
  { src := r.startNode.id, dst := r.endNode.id, props := r.props,
    srcLabels := r.startNode.labels, dstLabels := r.endNode.labels }

/-- `nodes_ids`: label → ordered id bucket. -/
abbrev NodeIds := List (String × List Nat)

/-- `nodes_features`: label → aligned property-dict bucket. -/
abbrev NodeFeats := List (String × List Props)

/-- Lines 150-157: for one label of one path node, create the label's
buckets when absent, then append `n.id` and `dict(n)` unless `n.id` is
already in the id bucket. -/
def addNodeLabel (st : NodeIds × NodeFeats) (n : Node) (lab : String) :
    NodeIds × NodeFeats :=
  let ids := if (alookup st.1 lab).isSome then st.1 else st.1 ++ [(lab, [])]
  let feats := if (alookup st.2 lab).isSome then st.2 else st.2 ++ [(lab, [])]
  let bucket := (alookup ids lab).getD []
  if n.id ∈ bucket then (ids, feats)
  else (dinsert ids lab (bucket ++ [n.id]),
        dinsert feats lab ((alookup feats lab).getD [] ++ [n.props]))

/-- Lines 149-157: `for lab in n.labels: ...` for one path node. -/
def addNode (st : NodeIds × NodeFeats) (n : Node) : NodeIds × NodeFeats :=
  n.labels.foldl (fun st lab => addNodeLabel st n lab) st

/-- `tmp_edges`: relationship type name → raw edge tuples. -/
abbrev TmpEdges := List (String × List RawEdge)

/-- Lines 160-172: record one relationship occurrence under its type name
(creating the list on first sight, then appending unconditionally). -/
def addRel (tmp : TmpEdges) (r : Rel) : TmpEdges :=
  let tmp := if (alookup tmp r.type).isSome then tmp else tmp ++ [(r.type, [])]
  dinsert tmp r.type ((alookup tmp r.type).getD [] ++ [toRawEdge r])

/-- Lines 144-172: one iteration of `for record in paths`, processing the
path's nodes and then its relationships. -/
def processPath (st : (NodeIds × NodeFeats) × TmpEdges) (p : Path) :
    (NodeIds × NodeFeats) × TmpEdges :=
  (p.nodes.foldl addNode st.1, p.relationships.foldl addRel st.2)

/-- The whole node/edge collection pass over the expansion result. -/
def processPaths (paths : List Path) : (NodeIds × NodeFeats) × TmpEdges :=
  paths.foldl processPath (([], []), [])

/-- Lines 184-189: `label_to_type[(sl, tl)] = typename` over the schema
entries of one relationship type (later entries overwrite earlier ones
with the same label pair, as dict assignment does). -/
def buildLookup (rel_def : List (String × SubDef)) :
    List ((String × String) × String) :=
  rel_def.foldl (fun m tv => dinsert m (tv.2.source, tv.2.target) tv.1) []

/-- Line 191: `grouped = {typename: [] for typename in rel_def.keys()}`. -/
def initGrouped (rel_def : List (String × SubDef)) :
    List (String × List (Nat × Nat × Props)) :=
  rel_def.map (fun tv => (tv.1, []))

/-- `grouped[typename].append(it)`: append to the value of the (unique)
binding of `typename`; `typename` is always a key of `grouped` here since
`label_to_type` values are drawn from `rel_def` keys. -/
def appendAt (g : List (String × List (Nat × Nat × Props))) (ty : String)
    (it : Nat × Nat × Props) : List (String × List (Nat × Nat × Props)) :=
  match g with
  | [] => []
  | (k, items) :: rest =>
    if k = ty then (k, items ++ [it]) :: rest else (k, items) :: appendAt rest ty it

/-- The cartesian product iterated at lines 193-194:
`for sl in src_labels: for tl in dst_labels`. -/
def pairsOf (e : RawEdge) : List (String × String) :=
  e.srcLabels.flatMap (fun sl => e.dstLabels.map (fun tl => (sl, tl)))

/-- Lines 195-197: the body of the label-pair loop: if the pair is in
`label_to_type`, append the edge triple `(src_id, dst_id, props)` to that
pair's group; otherwise do nothing. -/
def classifyStep (ltt : List ((String × String) × String)) (it : Nat × Nat × Props)
    (g : List (String × List (Nat × Nat × Props))) (pr : String × String) :
    List (String × List (Nat × Nat × Props)) :=
  match alookup ltt pr with
  | some ty => appendAt g ty it
  | none => g

/-- Lines 193-197: classify one raw edge: for every label pair of the
cartesian product present in `label_to_type`, append the edge triple to
that pair's group (the loop has no break). -/
def classifyEdge (ltt : List ((String × String) × String))
    (g : List (String × List (Nat × Nat × Props))) (e : RawEdge) :
    List (String × List (Nat × Nat × Props)) :=
  (pairsOf e).foldl (classifyStep ltt (e.src, e.dst, e.props)) g

/-- Lines 191-197: the grouped classification of one relationship type's
raw edges. -/
def groupedOf (rel_def : List (String × SubDef)) (triples : List RawEdge) :
    List (String × List (Nat × Nat × Props)) :=
  triples.foldl (classifyEdge (buildLookup rel_def)) (initGrouped rel_def)

/-- `edges_indices[reltype]`: sub-type → (src row, dst row) of the 2×M
index array `np.array([srcs, dsts])`. -/
abbrev EdgeIdx := List (String × (List Nat × List Nat))

/-- `edges_attributes[reltype]`: sub-type → aligned property list. -/
abbrev EdgeAttr := List (String × List Props)

/-- Lines 200-208: the body of the emission loop over `grouped.items()`:
skip a group with no items (`if not items: continue`), else store
`np.array([srcs, dsts])` and the aligned feature list under its name. -/
def emitStep (acc : EdgeIdx × EdgeAttr) (tv : String × List (Nat × Nat × Props)) :
    EdgeIdx × EdgeAttr :=
  if tv.2.isEmpty then acc
  else (dinsert acc.1 tv.1 (tv.2.map (·.1), tv.2.map (·.2.1)),
        dinsert acc.2 tv.1 (tv.2.map (·.2.2)))

/-- Lines 199-208: tensor assembly for one relationship type. -/
def emitGroups (grouped : List (String × List (Nat × Nat × Props))) :
    EdgeIdx × EdgeAttr :=
  grouped.foldl emitStep ([], [])

/-- Lines 184-208: classification and assembly for one relationship type
once its schema entry `rel_def = relationships[reltype]` is in hand. -/
def classifyRel (rel_def : List (String × SubDef)) (triples : List RawEdge) :
    EdgeIdx × EdgeAttr :=
  emitGroups (groupedOf rel_def triples)

/-- Failures of one extraction call: a store-level query failure
(`DriverError` / `Neo4jError` escaping `session.run`), or the `KeyError`
raised at line 181 by `relationships[reltype]` when the raw data holds a
relationship type the declaration does not — the spec's
`UnknownRelationshipType`. -/
inductive ExtractError where
  | queryError (msg : String)
  | unknownRelationshipType (reltype : String)
  deriving DecidableEq, Repr

/-- The four mappings `retrieve_subgraph` returns. -/
structure Snapshot where
  nodes_ids : NodeIds
  nodes_features : NodeFeats
  edges_indices : List (String × EdgeIdx)
  edges_attributes : List (String × EdgeAttr)
  deriving Repr

/-- Lines 174-208: `for reltype, triples in tmp_edges.items()`: look up the
schema entry (a missing key raises), classify and assemble, store both
results under `reltype`. -/
def classifyAll (relationships : Schema) :
    TmpEdges → List (String × EdgeIdx) × List (String × EdgeAttr) →
    Except ExtractError (List (String × EdgeIdx) × List (String × EdgeAttr))
  | [], acc => .ok acc
  | (reltype, triples) :: rest, acc =>
    match alookup relationships reltype with
    | none => .error (.unknownRelationshipType reltype)
    | some rel_def =>
      let r := classifyRel rel_def triples
      classifyAll relationships rest (dinsert acc.1 reltype r.1, dinsert acc.2 reltype r.2)

/-- The two store interactions of `retrieve_subgraph`: the rows of the seed
filter query (already projected to `record["n"].id`) and the paths of the
depth-bounded expansion query; `.error` is a driver/protocol failure. -/
structure Store where
  seedResult : Except String (List Nat)
  expandResult : Except String (List Path)

/-- Lines 108-211: `retrieve_subgraph`. Seed query → empty short-circuit →
expansion query → node dedup pass and raw-edge collection → per-type
classification and tensor assembly. -/
def retrieve_subgraph (relationships : Schema) (store : Store) :
    Except ExtractError Snapshot :=
  match store.seedResult with
  | .error e => .error (.queryError e)
  | .ok seed_ids =>
    if seed_ids.isEmpty then .ok ⟨[], [], [], []⟩
    else
      match store.expandResult with
      | .error e => .error (.queryError e)
      | .ok paths =>
        let st := processPaths paths
        match classifyAll relationships st.2 ([], []) with
        | .error e => .error e
        | .ok r => .ok ⟨st.1.1, st.1.2, r.1, r.2⟩

/-- The store behind `get_edges`: for a (source label, relationship type,
destination label) pattern, the matching rows `(src id, dst id, r.feat)`. -/
abbrev EdgeStore := String → String → String → List (Nat × Nat × Props)

/-- Lines 64-74: `get_edges`: collect `[src, dst]` rows and features, then
transpose (`np.array(edge_index).T`) into a src row and a dst row. -/
def get_edges (store : EdgeStore) (src_label rel_type dst_label : String) :
    (List Nat × List Nat) × List Props :=
  let recs := store src_label rel_type dst_label
  ((recs.map (·.1), recs.map (·.2.1)), recs.map (·.2.2))

/-- `edges_index` of `retrieve_edges`: relationship type → sub-type →
transposed index rows. -/
abbrev EIdxMap := List (String × List (String × (List Nat × List Nat)))

/-- `edges_attributes` of `retrieve_edges`: relationship type → sub-type →
feature list. -/
abbrev EAttrMap := List (String × List (String × List Props))

/-- Lines 92-101: the body of the inner loop of `retrieve_edges`: fetch
the edges of one declared (type, sub-type) pair and assign them into the
inner dicts under `key` (`edges_index[key][type] = edge_index`, and
likewise for the attributes). -/
def fetchStep (store : EdgeStore) (key : String) (acc : EIdxMap × EAttrMap)
    (tv : String × SubDef) : EIdxMap × EAttrMap :=
  let r := get_edges store tv.2.source key tv.2.target
  (dinsert acc.1 key (dinsert ((alookup acc.1 key).getD []) tv.1 r.1),
   dinsert acc.2 key (dinsert ((alookup acc.2 key).getD []) tv.1 r.2))

/-- Lines 89-101: the body of the outer loop of `retrieve_edges`: create
the (initially empty) inner dicts of one relationship type, then fetch
and assign every declared sub-type. -/
def relStep (store : EdgeStore) (acc : EIdxMap × EAttrMap)
    (kv : String × List (String × SubDef)) : EIdxMap × EAttrMap :=
  kv.2.foldl (fetchStep store kv.1) (dinsert acc.1 kv.1 [], dinsert acc.2 kv.1 [])

/-- Lines 86-102: `retrieve_edges`: for every relationship type of the
caller's dictionary create its (initially empty) inner dicts, then for
every declared sub-type fetch and store its edges — fetched or not, every
declared (type, sub-type) pair is assigned. -/
def retrieve_edges (store : EdgeStore) (relationship_dict : Schema) :
    EIdxMap × EAttrMap :=
  relationship_dict.foldl (relStep store) ([], [])

/-- The raw-edge tuples a relationship list contributes for one type name,
in traversal order: one tuple per occurrence. -/
def rawOfType (rs : List Rel) (ty : String) : List RawEdge :=
  (rs.filter (fun r => decide (r.type = ty))).map toRawEdge

/-- Concrete witness scaffolding: a single-label `"A"` node, identity 1. -/
def wNodeA : Node := ⟨1, ["A"], []⟩

/-- A single-label `"B"` node, identity 2. -/
def wNodeB : Node := ⟨2, ["B"], []⟩

/-- A schema declaring one relationship type `"R"` with one sub-type. -/
def wSchema : Schema := [("R", [("t", ⟨"A", "B"⟩)])]

/-- A relationship of type `"forked_from"`, absent from `wSchema`. -/
def wRelFork : Rel := ⟨9, "forked_from", wNodeA, wNodeB, []⟩

/-- A path containing the undeclared `"forked_from"` relationship. -/
def wPathFork : Path := ⟨[wNodeA, wNodeB], [wRelFork]⟩

/-- Store whose expansion returns the `"forked_from"` path. -/
def wStoreFork : Store := ⟨.ok [1], .ok [wPathFork]⟩

/-- A raw edge whose source node carries the two labels `"A"` and `"B"`,
each matching a different declared sub-type. -/
def wEdgeMulti : RawEdge := ⟨1, 2, [("w", "1")], ["A", "B"], ["C"]⟩

/-- Schema for the multi-label scenario: `"R"` fans out into `"t1"` =
(`"A"`, `"C"`) and `"t2"` = (`"B"`, `"C"`). -/
def wDefMulti : List (String × SubDef) := [("t1", ⟨"A", "C"⟩), ("t2", ⟨"B", "C"⟩)]

/-- A node carrying the two labels `"A"` and `"B"` at once. -/
def wNodeAB : Node := ⟨1, ["A", "B"], []⟩

/-- A single-label `"C"` node. -/
def wNodeC : Node := ⟨2, ["C"], []⟩

/-- One relationship instance (identity 5) from the double-labelled node. -/
def wRelMulti : Rel := ⟨5, "R", wNodeAB, wNodeC, [("w", "1")]⟩

/-- The multi-label schema under relationship type `"R"`. -/
def wSchemaMulti : Schema := [("R", wDefMulti)]

/-- Store for the multi-label scenario: one seed, one path, one edge. -/
def wStoreMulti : Store := ⟨.ok [1], .ok [⟨[wNodeAB, wNodeC], [wRelMulti]⟩]⟩

/-- The single relationship instance (identity 7) of type `"R"`. -/
def wRelR : Rel := ⟨7, "R", wNodeA, wNodeB, []⟩

/-- A path traversing `wRelR` outward. -/
def wPathFwd : Path := ⟨[wNodeA, wNodeB], [wRelR]⟩

/-- An overlapping path traversing the same relationship instance again. -/
def wPathBack : Path := ⟨[wNodeB, wNodeA], [wRelR]⟩

/-- Store whose expansion returns two overlapping paths through one
relationship instance. -/
def wStoreTwoPaths : Store := ⟨.ok [1], .ok [wPathFwd, wPathBack]⟩

/-- A reversed raw edge `"B" → "A"`, matching no pair of `wSchema`. -/
def wEdgeRev : RawEdge := ⟨2, 1, [("x", "9")], ["B"], ["A"]⟩

/-- The forward raw edge corresponding to `wRelR`. -/
def wEdgeFwd : RawEdge := ⟨1, 2, [], ["A"], ["B"]⟩

/-- The reversed relationship instance (identity 8), `"B"` node to `"A"`
node, type `"R"`. -/
def wRelBack : Rel := ⟨8, "R", wNodeB, wNodeA, [("x", "9")]⟩

/-- A path contributing only the reversed, unmatchable edge. -/
def wPathRev : Path := ⟨[wNodeB, wNodeA], [wRelBack]⟩

/-- Store whose expansion contains the reversed edge besides the forward one. -/
def wStoreWithRev : Store := ⟨.ok [1], .ok [wPathFwd, wPathRev]⟩

/-- Store whose expansion contains only the forward edge. -/
def wStoreNoRev : Store := ⟨.ok [1], .ok [wPathFwd]⟩

/-- The snapshot extracted from `wStoreNoRev`. -/
def wSnapFwd : Snapshot :=
  ⟨[("A", [1]), ("B", [2])], [("A", [[]]), ("B", [[]])],
   [("R", [("t", ([1], [2]))])], [("R", [("t", [[]])])]⟩

/-- Schema declaring, besides the populated `"t"`, a sub-type `"tz"` =
(`"X"`, `"Y"`) that no raw edge can match. -/
def wSchemaTz : Schema := [("R", [("t", ⟨"A", "B"⟩), ("tz", ⟨"X", "Y"⟩)])]

/-- Store for the empty-sub-type scenario. -/
def wStoreTz : Store := ⟨.ok [1], .ok [wPathFwd]⟩

/-- A concrete edge store: exactly one (`"User"`, `"owns"`, `"Repo"`) row
and nothing else. -/
def wEdgeStore : EdgeStore := fun s r t =>
  if s = "User" ∧ r = "owns" ∧ t = "Repo" then [(1, 2, [("f", "0")])] else []

/-- A declaration whose `"owns_org"` sub-type matches nothing in the store. -/
def wRelDict : Schema :=
  [("owns", [("owns_repo", ⟨"User", "Repo"⟩), ("owns_org", ⟨"User", "Org"⟩)])]

theorem alookup_dinsert_self {κ β : Type} [DecidableEq κ] (m : List (κ × β)) (k : κ) (v : β) :
    alookup (dinsert m k v) k = some v := by
  induction m with
  | nil => simp [dinsert, alookup]
  | cons kv rest ih =>
    obtain ⟨k1, v1⟩ := kv
    by_cases hk : k1 = k
    · subst hk
      simp [dinsert, alookup]
    · simp [dinsert, alookup, hk, ih]

theorem alookup_dinsert_ne {κ β : Type} [DecidableEq κ] (m : List (κ × β)) (k k' : κ) (v : β)
    (h : k' ≠ k) : alookup (dinsert m k v) k' = alookup m k' := by
  have h' : k ≠ k' := Ne.symm h
  induction m with
  | nil => simp [dinsert, alookup, h']
  | cons kv rest ih =>
    obtain ⟨k1, v1⟩ := kv
    by_cases hk : k1 = k
    · subst hk
      simp [dinsert, alookup, h']
    · by_cases hk' : k1 = k'
      · subst hk'
        simp [dinsert, alookup, hk]
      · simp [dinsert, alookup, hk, hk', ih]

theorem alookup_mem {κ β : Type} [DecidableEq κ] (m : List (κ × β)) (k : κ) (v : β)
    (h : alookup m k = some v) : (k, v) ∈ m := by
  induction m with
  | nil => simp [alookup] at h
  | cons kv rest ih =>
    obtain ⟨k1, v1⟩ := kv
    by_cases hk : k1 = k
    · subst hk
      simp only [alookup, if_pos rfl] at h
      obtain rfl := Option.some.inj h
      exact List.mem_cons_self _ _
    · simp only [alookup, if_neg hk] at h
      exact List.mem_cons_of_mem _ (ih h)

theorem mem_dinsert {κ β : Type} [DecidableEq κ] (m : List (κ × β)) (k : κ) (v : β)
    (x : κ × β) (h : x ∈ dinsert m k v) : x ∈ m ∨ x = (k, v) := by
  induction m with
  | nil =>
    simp [dinsert] at h
    right; exact h
  | cons kv rest ih =>
    obtain ⟨k1, v1⟩ := kv
    by_cases hk : k1 = k
    · subst hk
      simp [dinsert] at h
      rcases h with h | h
      · right; exact h
      · left; exact List.mem_cons_of_mem _ h
    · simp [dinsert, hk] at h
      rcases h with h | h
      · left
        subst h
        exact List.mem_cons_self _ _
      · rcases ih h with h' | h'
        · left; exact List.mem_cons_of_mem _ h'
        · right; exact h'

theorem alookup_append {κ β : Type} [DecidableEq κ] (m m' : List (κ × β)) (k : κ) :
    alookup (m ++ m') k = match alookup m k with
      | some v => some v
      | none => alookup m' k := by
  induction m with
  | nil => simp [alookup]
  | cons kv rest ih =>
    obtain ⟨k1, v1⟩ := kv
    by_cases hk : k1 = k
    · simp [alookup, hk]
    · simp [alookup, hk, ih]

theorem alookup_eq_none_iff {κ β : Type} [DecidableEq κ] (m : List (κ × β)) (k : κ) :
    alookup m k = none ↔ k ∉ m.map Prod.fst := by
  induction m with
  | nil => simp [alookup]
  | cons kv rest ih =>
    obtain ⟨k1, v1⟩ := kv
    by_cases hk : k1 = k
    · subst hk
      simp [alookup]
    · simp [alookup, hk, ih, Ne.symm hk]

theorem dinsert_of_none {κ β : Type} [DecidableEq κ] (m : List (κ × β)) (k : κ) (v : β)
    (h : alookup m k = none) : dinsert m k v = m ++ [(k, v)] := by
  induction m with
  | nil => simp [dinsert]
  | cons kv rest ih =>
    obtain ⟨k1, v1⟩ := kv
    by_cases hk : k1 = k
    · subst hk
      simp [alookup] at h
    · simp only [alookup, if_neg hk] at h
      simp [dinsert, hk, ih h]

theorem dinsert_map_fst_of_isSome {κ β : Type} [DecidableEq κ] (m : List (κ × β)) (k : κ) (v : β)
    (h : (alookup m k).isSome) : (dinsert m k v).map Prod.fst = m.map Prod.fst := by
  induction m with
  | nil => simp [alookup] at h
  | cons kv rest ih =>
    obtain ⟨k1, v1⟩ := kv
    by_cases hk : k1 = k
    · subst hk
      simp [dinsert]
    · simp only [alookup, if_neg hk] at h
      simp [dinsert, hk, ih h]

theorem alookup_append_self {κ β : Type} [DecidableEq κ] (m : List (κ × β)) (k : κ) (v : β)
    (h : alookup m k = none) : alookup (m ++ [(k, v)]) k = some v := by
  rw [alookup_append, h]
  simp [alookup]

theorem alookup_addRel_self (tmp : TmpEdges) (r : Rel) :
    alookup (addRel tmp r) r.type
      = some ((alookup tmp r.type).getD [] ++ [toRawEdge r]) := by
  cases hx : alookup tmp r.type with
  | some l => simp [addRel, hx, alookup_dinsert_self]
  | none =>
    have h1 : alookup (tmp ++ [(r.type, [])]) r.type = some [] :=
      alookup_append_self _ _ _ hx
    simp [addRel, hx, h1, alookup_dinsert_self]

theorem alookup_addRel_ne (tmp : TmpEdges) (r : Rel) (ty : String) (h : ty ≠ r.type) :
    alookup (addRel tmp r) ty = alookup tmp ty := by
  cases hx : alookup tmp r.type with
  | some l => simp [addRel, hx, alookup_dinsert_ne _ _ _ _ h]
  | none =>
    have h2 : alookup (tmp ++ [(r.type, [])]) ty = alookup tmp ty := by
      rw [alookup_append]
      cases hy : alookup tmp ty <;> simp [alookup, h, Ne.symm h]
    simp [addRel, hx, alookup_dinsert_ne _ _ _ _ h, h2]

theorem alookup_foldl_addRel (rs : List Rel) (tmp : TmpEdges) (ty : String) :
    alookup (rs.foldl addRel tmp) ty =
      match alookup tmp ty with
      | some l => some (l ++ rawOfType rs ty)
      | none => if (rawOfType rs ty).isEmpty then none else some (rawOfType rs ty) := by
  induction rs generalizing tmp with
  | nil => cases hx : alookup tmp ty <;> simp [rawOfType, hx]
  | cons r rs ih =>
    simp only [List.foldl_cons]
    rw [ih (addRel tmp r)]
    by_cases hty : ty = r.type
    · subst hty
      rw [alookup_addRel_self]
      cases hx : alookup tmp r.type with
      | some l => simp [rawOfType, hx, List.filter_cons]
      | none => simp [rawOfType, hx, List.filter_cons]
    · rw [alookup_addRel_ne _ _ _ hty]
      have hne : r.type ≠ ty := fun hh => hty hh.symm
      have hsame : rawOfType (r :: rs) ty = rawOfType rs ty := by
        simp [rawOfType, List.filter_cons, hne]
      rw [hsame]

theorem processPaths_snd (paths : List Path) :
    (processPaths paths).2
      = paths.foldl (fun tmp p => p.relationships.foldl addRel tmp) [] := by
  have h : ∀ (st : (NodeIds × NodeFeats) × TmpEdges),
      (paths.foldl processPath st).2
        = paths.foldl (fun tmp p => p.relationships.foldl addRel tmp) st.2 := by
    induction paths with
    | nil => intro st; rfl
    | cons p ps ih =>
      intro st
      simp only [List.foldl_cons]
      exact ih (processPath st p)
  exact h _

theorem alookup_foldl_paths (paths : List Path) (tmp : TmpEdges) (ty : String) :
    alookup (paths.foldl (fun tmp p => p.relationships.foldl addRel tmp) tmp) ty =
      match alookup tmp ty with
      | some l => some (l ++ rawOfType (paths.flatMap Path.relationships) ty)
      | none =>
        if (rawOfType (paths.flatMap Path.relationships) ty).isEmpty then none
        else some (rawOfType (paths.flatMap Path.relationships) ty) := by
  induction paths generalizing tmp with
  | nil => cases hx : alookup tmp ty <;> simp [rawOfType, hx]
  | cons p ps ih =>
    simp only [List.foldl_cons]
    rw [ih, alookup_foldl_addRel]
    have hsplit : rawOfType ((p :: ps).flatMap Path.relationships) ty
        = rawOfType p.relationships ty ++ rawOfType (ps.flatMap Path.relationships) ty := by
      simp [rawOfType, List.filter_append]
    rw [hsplit]
    cases hx : alookup tmp ty with
    | some l => simp [List.append_assoc]
    | none =>
      cases hw : rawOfType p.relationships ty with
      | nil => simp
      | cons a as => simp

theorem classifyAll_missing (relationships : Schema) (tmp : TmpEdges) :
    ∀ acc, (∃ kv ∈ tmp, alookup relationships kv.1 = none) →
      ∃ t, classifyAll relationships tmp acc = .error (.unknownRelationshipType t)
        ∧ alookup relationships t = none := by
  induction tmp with
  | nil =>
    intro acc h
    rcases h with ⟨kv, hmem, _⟩
    simp at hmem
  | cons kv rest ih =>
    intro acc h
    obtain ⟨k1, t1⟩ := kv
    cases hx : alookup relationships k1 with
    | none => exact ⟨k1, by simp [classifyAll, hx], hx⟩
    | some rd =>
      rcases h with ⟨kv', hmem, hnone⟩
      rcases List.mem_cons.mp hmem with rfl | hmem'
      · rw [hx] at hnone
        cases hnone
      · have hrec := ih (dinsert acc.1 k1 (classifyRel rd t1).1,
          dinsert acc.2 k1 (classifyRel rd t1).2) ⟨kv', hmem', hnone⟩
        simpa [classifyAll, hx] using hrec

theorem alookup_processPaths_isSome (paths : List Path) (p : Path) (r : Rel)
    (hp : p ∈ paths) (hr : r ∈ p.relationships) :
    ∃ l, alookup (processPaths paths).2 r.type = some l := by
  rw [processPaths_snd]
  have h := alookup_foldl_paths paths [] r.type
  have hmem : toRawEdge r ∈ rawOfType (paths.flatMap Path.relationships) r.type := by
    refine List.mem_map.mpr ⟨r, List.mem_filter.mpr ⟨List.mem_flatMap.mpr ⟨p, hp, hr⟩, by simp⟩, rfl⟩
  cases hw : rawOfType (paths.flatMap Path.relationships) r.type with
  | nil =>
    rw [hw] at hmem
    cases hmem
  | cons a as =>
    rw [hw] at h
    simp only [alookup] at h
    exact ⟨a :: as, by simpa using h⟩

/-- C1: whenever the expansion result contains a relationship whose type
name has no entry in the caller-supplied relation declaration, the
extraction fails with `unknownRelationshipType` naming a missing type
(the `KeyError` of `relationships[reltype]`), rather than skipping or
misclassifying it. -/
theorem C1_unknown_relationship_type_is_fatal (relationships : Schema) (store : Store)
    (seeds : List Nat) (paths : List Path) (p : Path) (r : Rel)
    (hs : store.seedResult = .ok seeds) (hne : seeds ≠ [])
    (hx : store.expandResult = .ok paths)
    (hp : p ∈ paths) (hr : r ∈ p.relationships)
    (hmiss : alookup relationships r.type = none) :
    ∃ t, retrieve_subgraph relationships store = .error (.unknownRelationshipType t)
      ∧ alookup relationships t = none := by
  obtain ⟨l, hl⟩ := alookup_processPaths_isSome paths p r hp hr
  have hkv : (r.type, l) ∈ (processPaths paths).2 := alookup_mem _ _ _ hl
  obtain ⟨t, ht, htnone⟩ :=
    classifyAll_missing relationships (processPaths paths).2 ([], []) ⟨(r.type, l), hkv, hmiss⟩
  refine ⟨t, ?_, htnone⟩
  have hemp : seeds.isEmpty = false := by
    cases seeds with
    | nil => exact absurd rfl hne
    | cons a as => rfl
  simp [retrieve_subgraph, hs, hx, hemp, ht]

/-- C1 witness: the spec scenario — raw type `"forked_from"` with no
schema entry makes the extraction fail. -/
theorem C1_unknown_relationship_type_is_fatal_witness :
    (wStoreFork.seedResult = .ok [1] ∧ ([(1 : Nat)] ≠ [])
      ∧ wStoreFork.expandResult = .ok [wPathFork]
      ∧ wPathFork ∈ [wPathFork] ∧ wRelFork ∈ wPathFork.relationships
      ∧ alookup wSchema wRelFork.type = none)
    ∧ ∃ t, retrieve_subgraph wSchema wStoreFork = .error (.unknownRelationshipType t)
        ∧ alookup wSchema t = none :=
  ⟨⟨rfl, by decide, rfl, by decide, by decide, by decide⟩,
    C1_unknown_relationship_type_is_fatal wSchema wStoreFork [1] [wPathFork] wPathFork wRelFork
      rfl (by decide) rfl (by decide) (by decide) (by decide)⟩

/-- C3 (amended): the raw edge multiset collected for a type name is
exactly, in traversal order, one tuple per occurrence of a relationship of
that type in the returned paths — so a relationship instance traversed by
k overlapping paths contributes k entries, not one. -/
theorem C3_raw_edges_counted_per_path_membership (paths : List Path) (ty : String) :
    alookup (processPaths paths).2 ty =
      if (rawOfType (paths.flatMap Path.relationships) ty).isEmpty then none
      else some (rawOfType (paths.flatMap Path.relationships) ty) := by
  rw [processPaths_snd]
  have h := alookup_foldl_paths paths [] ty
  simpa [alookup] using h

theorem alookup_appendAt_self (g : List (String × List (Nat × Nat × Props)))
    (ty : String) (it : Nat × Nat × Props) :
    alookup (appendAt g ty it) ty
      = (alookup g ty).map (fun items => items ++ [it]) := by
  induction g with
  | nil => simp [appendAt, alookup]
  | cons kv rest ih =>
    obtain ⟨k1, v1⟩ := kv
    by_cases hk : k1 = ty
    · subst hk
      simp [appendAt, alookup]
    · simp [appendAt, alookup, hk, ih]

theorem alookup_appendAt_ne (g : List (String × List (Nat × Nat × Props)))
    (ty ty' : String) (it : Nat × Nat × Props) (h : ty' ≠ ty) :
    alookup (appendAt g ty it) ty' = alookup g ty' := by
  induction g with
  | nil => simp [appendAt, alookup]
  | cons kv rest ih =>
    obtain ⟨k1, v1⟩ := kv
    by_cases hk : k1 = ty
    · subst hk
      simp [appendAt, alookup, Ne.symm h]
    · by_cases hk' : k1 = ty'
      · subst hk'
        simp [appendAt, alookup, hk]
      · simp [appendAt, alookup, hk, hk', ih]

theorem classifyStep_none (ltt : List ((String × String) × String))
    (it : Nat × Nat × Props) (g : List (String × List (Nat × Nat × Props)))
    (pr : String × String) (h : alookup ltt pr = none) :
    classifyStep ltt it g pr = g := by
  simp [classifyStep, h]

theorem classifyStep_some (ltt : List ((String × String) × String))
    (it : Nat × Nat × Props) (g : List (String × List (Nat × Nat × Props)))
    (pr : String × String) (ty : String) (h : alookup ltt pr = some ty) :
    classifyStep ltt it g pr = appendAt g ty it := by
  simp [classifyStep, h]

theorem alookup_foldl_classifyStep (ltt : List ((String × String) × String))
    (it : Nat × Nat × Props) (L : List (String × String)) :
    ∀ (g : List (String × List (Nat × Nat × Props))) (ty : String)
      (items : List (Nat × Nat × Props)), alookup g ty = some items →
      alookup (L.foldl (classifyStep ltt it) g) ty
        = some (items
            ++ (L.filter (fun pr => decide (alookup ltt pr = some ty))).map (fun _ => it)) := by
  induction L with
  | nil =>
    intro g ty items h
    simpa using h
  | cons pr L ih =>
    intro g ty items h
    simp only [List.foldl_cons]
    cases hpr : alookup ltt pr with
    | none =>
      rw [classifyStep_none _ _ _ _ hpr, ih g ty items h]
      simp [List.filter_cons, hpr]
    | some t =>
      rw [classifyStep_some _ _ _ _ _ hpr]
      by_cases hty : t = ty
      · subst hty
        have h2 : alookup (appendAt g t it) t = some (items ++ [it]) := by
          rw [alookup_appendAt_self, h]
          rfl
        rw [ih _ _ _ h2]
        simp [List.filter_cons, hpr]
      · have h2 : alookup (appendAt g t it) ty = some items := by
          rw [alookup_appendAt_ne _ _ _ _ (fun hh => hty hh.symm)]
          exact h
        rw [ih _ _ _ h2]
        simp [List.filter_cons, hpr, hty]

/-- C2 (amended): the classifier has no first-match break: every label
pair of the cartesian product that is present in the lookup contributes
one copy of the edge triple to that pair's group, so an edge whose
endpoint labels match several schema pairs is placed in several sub-type
groups (or several times in one), not in exactly one. -/
theorem C2_edge_grouped_once_per_matching_pair (ltt : List ((String × String) × String))
    (g : List (String × List (Nat × Nat × Props))) (e : RawEdge) (ty : String)
    (items : List (Nat × Nat × Props)) (h : alookup g ty = some items) :
    alookup (classifyEdge ltt g e) ty
      = some (items
          ++ ((pairsOf e).filter (fun pr => decide (alookup ltt pr = some ty))).map
              (fun _ => (e.src, e.dst, e.props))) :=
  alookup_foldl_classifyStep ltt (e.src, e.dst, e.props) (pairsOf e) g ty items h

/-- C2 witness: the amended per-pair grouping at a concrete multi-label
edge: the `"t1"` group receives exactly one copy of the edge. -/
theorem C2_edge_grouped_once_per_matching_pair_witness :
    (alookup (initGrouped wDefMulti) "t1" = some [])
    ∧ alookup (classifyEdge (buildLookup wDefMulti) (initGrouped wDefMulti) wEdgeMulti) "t1"
      = some ([]
          ++ ((pairsOf wEdgeMulti).filter
              (fun pr => decide (alookup (buildLookup wDefMulti) pr = some "t1"))).map
              (fun _ => (wEdgeMulti.src, wEdgeMulti.dst, wEdgeMulti.props))) :=
  ⟨by decide,
    C2_edge_grouped_once_per_matching_pair (buildLookup wDefMulti) (initGrouped wDefMulti)
      wEdgeMulti "t1" [] (by decide)⟩

/-- C2 counterexample: the traversal result holds exactly one raw edge,
yet the snapshot places it in both sub-type groups `"t1"` and `"t2"` —
the claimed first-match-wins, exactly-one-group classification is false. -/
theorem C2_counterexample_edge_in_two_groups :
    (([⟨[wNodeAB, wNodeC], [wRelMulti]⟩] : List Path).flatMap Path.relationships).length = 1
    ∧ retrieve_subgraph wSchemaMulti wStoreMulti
      = .ok ⟨[("A", [1]), ("B", [1]), ("C", [2])],
             [("A", [[]]), ("B", [[]]), ("C", [[]])],
             [("R", [("t1", ([1], [2])), ("t2", ([1], [2]))])],
             [("R", [("t1", [[("w", "1")]]), ("t2", [[("w", "1")]])])]⟩ :=
  ⟨by decide, rfl⟩

/-- C3 counterexample: the expansion result holds one distinct
relationship instance (identity 7) twice, once per path, and the emitted
edge-index array has two columns `([1, 1], [2, 2])` — the claim that each
distinct relationship instance contributes exactly one raw entry is
false: the count is per path membership. -/
theorem C3_counterexample_instance_counted_twice :
    (([wPathFwd, wPathBack].flatMap Path.relationships).map Rel.rid = [7, 7])
    ∧ retrieve_subgraph wSchema wStoreTwoPaths
      = .ok ⟨[("A", [1]), ("B", [2])], [("A", [[]]), ("B", [[]])],
             [("R", [("t", ([1, 1], [2, 2]))])], [("R", [("t", [[], []])])]⟩ :=
  ⟨by decide, rfl⟩

theorem foldl_classifyStep_unmatched (ltt : List ((String × String) × String))
    (it : Nat × Nat × Props) (L : List (String × String)) :
    ∀ g : List (String × List (Nat × Nat × Props)),
      (∀ pr ∈ L, alookup ltt pr = none) → L.foldl (classifyStep ltt it) g = g := by
  induction L with
  | nil => intro g _; rfl
  | cons pr L ih =>
    intro g h
    simp only [List.foldl_cons]
    rw [classifyStep_none _ _ _ _ (h pr (List.mem_cons_self _ _))]
    exact ih g (fun pr' hpr' => h pr' (List.mem_cons_of_mem _ hpr'))

theorem classifyEdge_unmatched (ltt : List ((String × String) × String))
    (g : List (String × List (Nat × Nat × Props))) (e : RawEdge)
    (h : ∀ pr ∈ pairsOf e, alookup ltt pr = none) :
    classifyEdge ltt g e = g :=
  foldl_classifyStep_unmatched ltt (e.src, e.dst, e.props) (pairsOf e) g h

/-- C8 (amended): a raw edge of a declared relationship type whose
endpoint label pairs match no schema entry is dropped from the classified
output without raising an error, and without leaving any trace: the
classified output is exactly the one computed without the edge. No
discard count exists — the source maintains none and returns only the
four snapshot mappings. -/
theorem C8_unmatched_edge_dropped_without_trace (rel_def : List (String × SubDef))
    (e : RawEdge) (triples : List RawEdge)
    (h : ∀ pr ∈ pairsOf e, alookup (buildLookup rel_def) pr = none) :
    classifyRel rel_def (e :: triples) = classifyRel rel_def triples := by
  unfold classifyRel groupedOf
  simp only [List.foldl_cons]
  rw [classifyEdge_unmatched _ _ _ h]

/-- C8 witness: dropping the concrete reversed edge leaves the classified
output of the forward edge untouched. -/
theorem C8_unmatched_edge_dropped_without_trace_witness :
    (∀ pr ∈ pairsOf wEdgeRev, alookup (buildLookup [("t", ⟨"A", "B"⟩)]) pr = none)
    ∧ classifyRel [("t", ⟨"A", "B"⟩)] (wEdgeRev :: [wEdgeFwd])
      = classifyRel [("t", ⟨"A", "B"⟩)] [wEdgeFwd] :=
  ⟨by decide,
    C8_unmatched_edge_dropped_without_trace [("t", ⟨"A", "B"⟩)] wEdgeRev [wEdgeFwd] (by decide)⟩

/-- C8 counterexample: the claim that the discard is recorded via a
discard count reported to the caller is false — the snapshot for the
store containing the unmatched reversed edge is identical to the snapshot
for the store without it, so the caller can observe no discard count (the
first conjunct checks the reversed edge matches no schema pair). -/
theorem C8_counterexample_no_discard_count :
    (∀ pr ∈ pairsOf (toRawEdge wRelBack), alookup (buildLookup [("t", ⟨"A", "B"⟩)]) pr = none)
    ∧ retrieve_subgraph wSchema wStoreWithRev = retrieve_subgraph wSchema wStoreNoRev :=
  ⟨by decide, rfl⟩

theorem nodupBuckets_addNodeLabel (st : NodeIds × NodeFeats) (n : Node) (lab : String)
    (h : ∀ q ∈ st.1, (q : String × List Nat).2.Nodup) :
    ∀ q ∈ (addNodeLabel st n lab).1, q.2.Nodup := by
  have hids : ∀ q ∈ (if (alookup st.1 lab).isSome then st.1 else st.1 ++ [(lab, [])]),
      (q : String × List Nat).2.Nodup := by
    by_cases hc : (alookup st.1 lab).isSome
    · simpa [hc] using h
    · intro q hq
      simp only [hc, if_neg, Bool.false_eq_true, not_false_iff] at hq
      rcases List.mem_append.mp hq with hq | hq
      · exact h q hq
      · rw [List.mem_singleton] at hq
        subst hq
        exact List.nodup_nil
  intro q hq
  simp only [addNodeLabel] at hq
  set ids := (if (alookup st.1 lab).isSome then st.1 else st.1 ++ [(lab, [])]) with hidsdef
  by_cases hmem : n.id ∈ (alookup ids lab).getD []
  · rw [if_pos hmem] at hq
    exact hids q hq
  · rw [if_neg hmem] at hq
    rcases mem_dinsert _ _ _ _ hq with hq' | hq'
    · exact hids q hq'
    · subst hq'
      have hbucket : ((alookup ids lab).getD []).Nodup := by
        cases hb : alookup ids lab with
        | none => simp
        | some b =>
          have := hids (lab, b) (alookup_mem _ _ _ hb)
          simpa [hb] using this
      simp only []
      rw [List.nodup_append]
      refine ⟨hbucket, List.nodup_singleton _, ?_⟩
      intro a ha hb
      rw [List.mem_singleton] at hb
      subst hb
      exact hmem ha

theorem nodupBuckets_addNode (st : NodeIds × NodeFeats) (n : Node)
    (h : ∀ q ∈ st.1, (q : String × List Nat).2.Nodup) :
    ∀ q ∈ (addNode st n).1, q.2.Nodup := by
  unfold addNode
  have hgen : ∀ (L : List String) (st : NodeIds × NodeFeats),
      (∀ q ∈ st.1, (q : String × List Nat).2.Nodup) →
      ∀ q ∈ (L.foldl (fun st lab => addNodeLabel st n lab) st).1, q.2.Nodup := by
    intro L
    induction L with
    | nil => intro st h q hq; exact h q hq
    | cons lab L ih =>
      intro st h
      simp only [List.foldl_cons]
      exact ih _ (nodupBuckets_addNodeLabel st n lab h)
  exact hgen n.labels st h

theorem nodupBuckets_processPaths (paths : List Path) :
    ∀ q ∈ (processPaths paths).1.1, (q : String × List Nat).2.Nodup := by
  have hnodes : ∀ (N : List Node) (st : NodeIds × NodeFeats),
      (∀ q ∈ st.1, (q : String × List Nat).2.Nodup) →
      ∀ q ∈ (N.foldl addNode st).1, q.2.Nodup := by
    intro N
    induction N with
    | nil => intro st h q hq; exact h q hq
    | cons nd N ih =>
      intro st h
      simp only [List.foldl_cons]
      exact ih _ (nodupBuckets_addNode st nd h)
  have hgen : ∀ (ps : List Path) (st : (NodeIds × NodeFeats) × TmpEdges),
      (∀ q ∈ st.1.1, (q : String × List Nat).2.Nodup) →
      ∀ q ∈ (ps.foldl processPath st).1.1, q.2.Nodup := by
    intro ps
    induction ps with
    | nil => intro st h q hq; exact h q hq
    | cons p ps ih =>
      intro st h
      simp only [List.foldl_cons]
      exact ih (processPath st p) (hnodes p.nodes st.1 h)
  exact hgen paths (([], []), []) (by intro q hq; cases hq)

/-- C4: in every snapshot an extraction returns, no node identity occurs
twice within one label bucket of `nodes_ids`: the membership check of
line 153 makes each bucket duplicate-free. -/
theorem C4_label_buckets_are_duplicate_free (relationships : Schema) (store : Store)
    (s : Snapshot) (h : retrieve_subgraph relationships store = .ok s) :
    ∀ lab ids, (lab, ids) ∈ s.nodes_ids → ids.Nodup := by
  intro lab ids hmem
  cases hseed : store.seedResult with
  | error e =>
    simp only [retrieve_subgraph, hseed] at h
    cases h
  | ok seeds =>
    simp only [retrieve_subgraph, hseed] at h
    by_cases hemp : seeds.isEmpty
    · rw [if_pos hemp] at h
      obtain rfl := (Except.ok.inj h).symm
      cases hmem
    · rw [if_neg hemp] at h
      cases hexp : store.expandResult with
      | error e =>
        simp only [hexp] at h
        cases h
      | ok paths =>
        simp only [hexp] at h
        cases hcls : classifyAll relationships (processPaths paths).2 ([], []) with
        | error e =>
          simp only [hcls] at h
          cases h
        | ok r =>
          simp only [hcls] at h
          obtain rfl := (Except.ok.inj h).symm
          exact nodupBuckets_processPaths paths (lab, ids) hmem

/-- C4 witness: the dedup invariant applied at a concrete extraction. -/
theorem C4_label_buckets_are_duplicate_free_witness :
    retrieve_subgraph wSchema wStoreNoRev = .ok wSnapFwd
    ∧ ("A", [1]) ∈ wSnapFwd.nodes_ids ∧ ([1] : List Nat).Nodup :=
  ⟨rfl, by decide,
    C4_label_buckets_are_duplicate_free wSchema wStoreNoRev wSnapFwd rfl "A" [1] (by decide)⟩

theorem appendAt_map_fst (g : List (String × List (Nat × Nat × Props))) (ty : String)
    (it : Nat × Nat × Props) : (appendAt g ty it).map Prod.fst = g.map Prod.fst := by
  induction g with
  | nil => rfl
  | cons kv rest ih =>
    obtain ⟨k1, v1⟩ := kv
    by_cases hk : k1 = ty
    · simp [appendAt, hk]
    · simp [appendAt, hk, ih]

theorem classifyStep_map_fst (ltt : List ((String × String) × String))
    (it : Nat × Nat × Props) (g : List (String × List (Nat × Nat × Props)))
    (pr : String × String) : (classifyStep ltt it g pr).map Prod.fst = g.map Prod.fst := by
  cases hpr : alookup ltt pr with
  | none => simp [classifyStep, hpr]
  | some t => simp [classifyStep, hpr, appendAt_map_fst]

theorem classifyEdge_map_fst (ltt : List ((String × String) × String)) (e : RawEdge) :
    ∀ g, (classifyEdge ltt g e).map Prod.fst = g.map Prod.fst := by
  unfold classifyEdge
  induction (pairsOf e) with
  | nil => intro g; rfl
  | cons pr L ih =>
    intro g
    simp only [List.foldl_cons]
    rw [ih, classifyStep_map_fst]

theorem groupedOf_map_fst (rel_def : List (String × SubDef)) (triples : List RawEdge) :
    (groupedOf rel_def triples).map Prod.fst = rel_def.map Prod.fst := by
  unfold groupedOf
  have hgen : ∀ g, (triples.foldl (classifyEdge (buildLookup rel_def)) g).map Prod.fst
      = g.map Prod.fst := by
    induction triples with
    | nil => intro g; rfl
    | cons e ts ih =>
      intro g
      simp only [List.foldl_cons]
      rw [ih, classifyEdge_map_fst]
  rw [hgen]
  simp [initGrouped]

theorem values_of_key_all_nil (g : List (String × List (Nat × Nat × Props))) (ty : String)
    (hnd : (g.map Prod.fst).Nodup) (h : alookup g ty = some []) :
    ∀ items, (ty, items) ∈ g → items = [] := by
  induction g with
  | nil => intro items hmem; cases hmem
  | cons kv rest ih =>
    obtain ⟨k1, v1⟩ := kv
    simp only [List.map_cons, List.nodup_cons] at hnd
    intro items hmem
    rcases List.mem_cons.mp hmem with heq | hmem'
    · obtain ⟨rfl, rfl⟩ := Prod.mk.inj heq.symm
      simp only [alookup, if_pos rfl] at h
      exact Option.some.inj h
    · by_cases hk : k1 = ty
      · subst hk
        exact absurd (List.mem_map.mpr ⟨(k1, items), hmem', rfl⟩) hnd.1
      · simp only [alookup, if_neg hk] at h
        exact ih hnd.2 h items hmem'

theorem foldl_emitStep_absent (ty : String) :
    ∀ (grouped : List (String × List (Nat × Nat × Props))) (acc : EdgeIdx × EdgeAttr),
      (∀ items, (ty, items) ∈ grouped → items = []) →
      alookup acc.1 ty = none → alookup acc.2 ty = none →
      alookup (grouped.foldl emitStep acc).1 ty = none
        ∧ alookup (grouped.foldl emitStep acc).2 ty = none := by
  intro grouped
  induction grouped with
  | nil => intro acc _ h1 h2; exact ⟨h1, h2⟩
  | cons tv rest ih =>
    intro acc hnil h1 h2
    simp only [List.foldl_cons]
    by_cases he : tv.2.isEmpty
    · rw [show emitStep acc tv = acc from by simp [emitStep, he]]
      exact ih acc (fun items hmem => hnil items (List.mem_cons_of_mem _ hmem)) h1 h2
    · have hk : tv.1 ≠ ty := by
        intro hk
        obtain ⟨t1, v1⟩ := tv
        subst hk
        have := hnil v1 (List.mem_cons_self _ _)
        subst this
        exact he rfl
      have hk' : ty ≠ tv.1 := fun hh => hk hh.symm
      refine ih (emitStep acc tv) (fun items hmem => hnil items (List.mem_cons_of_mem _ hmem)) ?_ ?_
      · simp only [emitStep, if_neg he]
        rw [alookup_dinsert_ne _ _ _ _ hk']
        exact h1
      · simp only [emitStep, if_neg he]
        rw [alookup_dinsert_ne _ _ _ _ hk']
        exact h2

theorem classifyRel_absent (rel_def : List (String × SubDef)) (triples : List RawEdge)
    (ty : String) (hnd : (rel_def.map Prod.fst).Nodup)
    (h : alookup (groupedOf rel_def triples) ty = some []) :
    alookup (classifyRel rel_def triples).1 ty = none
      ∧ alookup (classifyRel rel_def triples).2 ty = none := by
  have hnd' : ((groupedOf rel_def triples).map Prod.fst).Nodup := by
    rw [groupedOf_map_fst]
    exact hnd
  have hall := values_of_key_all_nil _ _ hnd' h
  unfold classifyRel emitGroups
  exact foldl_emitStep_absent ty (groupedOf rel_def triples) ([], []) hall rfl rfl

theorem addRel_map_fst (tmp : TmpEdges) (r : Rel) :
    (addRel tmp r).map Prod.fst
      = if (alookup tmp r.type).isSome then tmp.map Prod.fst
        else tmp.map Prod.fst ++ [r.type] := by
  cases hx : alookup tmp r.type with
  | some l =>
    simp only [addRel, hx, Option.isSome_some, if_true]
    exact dinsert_map_fst_of_isSome _ _ _ (by simp [hx])
  | none =>
    simp only [addRel, hx, Option.isSome_none, Bool.false_eq_true, if_false]
    rw [dinsert_map_fst_of_isSome _ _ _
      (by rw [alookup_append_self _ _ ([] : List RawEdge) hx]; rfl)]
    simp

theorem nodupKeys_addRel (tmp : TmpEdges) (r : Rel)
    (h : (tmp.map Prod.fst).Nodup) : ((addRel tmp r).map Prod.fst).Nodup := by
  rw [addRel_map_fst]
  cases hx : alookup tmp r.type with
  | some l =>
    simp only [Option.isSome_some, if_true]
    exact h
  | none =>
    have hnotin : r.type ∉ tmp.map Prod.fst := (alookup_eq_none_iff _ _).mp hx
    simp only [Option.isSome_none, Bool.false_eq_true, if_false]
    rw [List.nodup_append]
    refine ⟨h, List.nodup_singleton _, ?_⟩
    intro a ha hb
    rw [List.mem_singleton] at hb
    subst hb
    exact hnotin ha

theorem nodupKeys_processPaths (paths : List Path) :
    ((processPaths paths).2.map Prod.fst).Nodup := by
  rw [processPaths_snd]
  have hrels : ∀ (rs : List Rel) (tmp : TmpEdges), (tmp.map Prod.fst).Nodup →
      ((rs.foldl addRel tmp).map Prod.fst).Nodup := by
    intro rs
    induction rs with
    | nil => intro tmp h; exact h
    | cons r rs ih =>
      intro tmp h
      simp only [List.foldl_cons]
      exact ih _ (nodupKeys_addRel tmp r h)
  have hgen : ∀ (ps : List Path) (tmp : TmpEdges), (tmp.map Prod.fst).Nodup →
      ((ps.foldl (fun tmp p => p.relationships.foldl addRel tmp) tmp).map Prod.fst).Nodup := by
    intro ps
    induction ps with
    | nil => intro tmp h; exact h
    | cons p ps ih =>
      intro tmp h
      simp only [List.foldl_cons]
      exact ih _ (hrels p.relationships tmp h)
  exact hgen paths [] List.nodup_nil

theorem classifyAll_preserves (relationships : Schema) (tmp : TmpEdges) :
    ∀ acc res k, classifyAll relationships tmp acc = .ok res → k ∉ tmp.map Prod.fst →
      alookup res.1 k = alookup acc.1 k ∧ alookup res.2 k = alookup acc.2 k := by
  induction tmp with
  | nil =>
    intro acc res k hok _
    obtain rfl := Except.ok.inj hok
    exact ⟨rfl, rfl⟩
  | cons kv rest ih =>
    intro acc res k hok hk
    obtain ⟨rt0, t0⟩ := kv
    simp only [List.map_cons, List.mem_cons, not_or] at hk
    obtain ⟨hk0, hkr⟩ := hk
    cases hrd : alookup relationships rt0 with
    | none => simp [classifyAll, hrd] at hok
    | some rd =>
      simp only [classifyAll, hrd] at hok
      obtain ⟨h1, h2⟩ := ih _ res k hok hkr
      rw [h1, h2, alookup_dinsert_ne _ _ _ _ hk0, alookup_dinsert_ne _ _ _ _ hk0]
      exact ⟨rfl, rfl⟩

theorem classifyAll_entry (relationships : Schema) (tmp : TmpEdges) :
    ∀ acc res, (tmp.map Prod.fst).Nodup → classifyAll relationships tmp acc = .ok res →
      ∀ rt triples rel_def, (rt, triples) ∈ tmp → alookup relationships rt = some rel_def →
        alookup res.1 rt = some (classifyRel rel_def triples).1
          ∧ alookup res.2 rt = some (classifyRel rel_def triples).2 := by
  induction tmp with
  | nil =>
    intro acc res _ _ rt triples rel_def hmem _
    cases hmem
  | cons kv rest ih =>
    intro acc res hnd hok rt triples rel_def hmem hdef
    obtain ⟨rt0, t0⟩ := kv
    simp only [List.map_cons, List.nodup_cons] at hnd
    cases hrd : alookup relationships rt0 with
    | none => simp [classifyAll, hrd] at hok
    | some rd =>
      simp only [classifyAll, hrd] at hok
      rcases List.mem_cons.mp hmem with heq | hmem'
      · obtain ⟨rfl, rfl⟩ := Prod.mk.inj heq
        rw [hdef] at hrd
        obtain rfl := Option.some.inj hrd
        obtain ⟨h1, h2⟩ := classifyAll_preserves relationships rest _ res rt hok hnd.1
        rw [h1, h2, alookup_dinsert_self, alookup_dinsert_self]
        exact ⟨rfl, rfl⟩
      · exact ih _ res hnd.2 hok rt triples rel_def hmem' hdef

theorem foldl_emitStep_preserves (ty : String) :
    ∀ (grouped : List (String × List (Nat × Nat × Props))) (acc : EdgeIdx × EdgeAttr),
      ty ∉ grouped.map Prod.fst →
      alookup (grouped.foldl emitStep acc).1 ty = alookup acc.1 ty
        ∧ alookup (grouped.foldl emitStep acc).2 ty = alookup acc.2 ty := by
  intro grouped
  induction grouped with
  | nil => intro acc _; exact ⟨rfl, rfl⟩
  | cons tv rest ih =>
    intro acc hnotin
    simp only [List.map_cons, List.mem_cons, not_or] at hnotin
    obtain ⟨hne1, hrest⟩ := hnotin
    simp only [List.foldl_cons]
    obtain ⟨p1, p2⟩ := ih (emitStep acc tv) hrest
    rw [p1, p2]
    have hstep1 : alookup (emitStep acc tv).1 ty = alookup acc.1 ty := by
      by_cases he : tv.2.isEmpty
      · simp [emitStep, he]
      · simp [emitStep, he, alookup_dinsert_ne _ _ _ _ hne1]
    have hstep2 : alookup (emitStep acc tv).2 ty = alookup acc.2 ty := by
      by_cases he : tv.2.isEmpty
      · simp [emitStep, he]
      · simp [emitStep, he, alookup_dinsert_ne _ _ _ _ hne1]
    rw [hstep1, hstep2]
    exact ⟨rfl, rfl⟩

theorem foldl_emitStep_present (ty : String) (items : List (Nat × Nat × Props)) :
    ∀ (grouped : List (String × List (Nat × Nat × Props))) (acc : EdgeIdx × EdgeAttr),
      (grouped.map Prod.fst).Nodup →
      alookup grouped ty = some items → ¬items.isEmpty = true →
      alookup (grouped.foldl emitStep acc).1 ty
          = some (items.map (fun it => it.1), items.map (fun it => it.2.1))
        ∧ alookup (grouped.foldl emitStep acc).2 ty
          = some (items.map (fun it => it.2.2)) := by
  intro grouped
  induction grouped with
  | nil =>
    intro acc _ hx _
    simp [alookup] at hx
  | cons tv rest ih =>
    intro acc hnd hx hne
    obtain ⟨t1, v1⟩ := tv
    simp only [List.map_cons, List.nodup_cons] at hnd
    simp only [List.foldl_cons]
    by_cases hk : t1 = ty
    · subst hk
      simp only [alookup, if_pos rfl] at hx
      obtain rfl := Option.some.inj hx
      have h1 : alookup (emitStep acc (t1, v1)).1 t1
          = some (v1.map (fun it => it.1), v1.map (fun it => it.2.1)) := by
        simp [emitStep, hne, alookup_dinsert_self]
      have h2 : alookup (emitStep acc (t1, v1)).2 t1
          = some (v1.map (fun it => it.2.2)) := by
        simp [emitStep, hne, alookup_dinsert_self]
      obtain ⟨p1, p2⟩ := foldl_emitStep_preserves t1 rest (emitStep acc (t1, v1)) hnd.1
      exact ⟨by rw [p1, h1], by rw [p2, h2]⟩
    · simp only [alookup, if_neg hk] at hx
      exact ih (emitStep acc (t1, v1)) hnd.2 hx hne

theorem classifyRel_entry_is_group (rel_def : List (String × SubDef)) (triples : List RawEdge)
    (ty : String) (pr : List Nat × List Nat)
    (hnd : (rel_def.map Prod.fst).Nodup)
    (hpr : alookup (classifyRel rel_def triples).1 ty = some pr) :
    ∃ items : List (Nat × Nat × Props),
      alookup (groupedOf rel_def triples) ty = some items ∧ items ≠ []
      ∧ pr = (items.map (fun it => it.1), items.map (fun it => it.2.1))
      ∧ alookup (classifyRel rel_def triples).2 ty = some (items.map (fun it => it.2.2)) := by
  have hnd' : ((groupedOf rel_def triples).map Prod.fst).Nodup := by
    rw [groupedOf_map_fst]
    exact hnd
  cases hx : alookup (groupedOf rel_def triples) ty with
  | none =>
    have habs : ∀ its, (ty, its) ∈ groupedOf rel_def triples → its = [] := by
      intro its hmem
      have hk : ty ∈ (groupedOf rel_def triples).map Prod.fst :=
        List.mem_map.mpr ⟨(ty, its), hmem, rfl⟩
      exact absurd hk ((alookup_eq_none_iff _ _).mp hx)
    obtain ⟨ha, _⟩ :=
      foldl_emitStep_absent ty (groupedOf rel_def triples) ([], []) habs rfl rfl
    unfold classifyRel emitGroups at hpr
    rw [ha] at hpr
    cases hpr
  | some items =>
    cases items with
    | nil =>
      obtain ⟨ha, _⟩ := classifyRel_absent rel_def triples ty hnd hx
      rw [ha] at hpr
      cases hpr
    | cons a as =>
      obtain ⟨p1, p2⟩ := foldl_emitStep_present ty (a :: as) (groupedOf rel_def triples)
        ([], []) hnd' hx (by simp)
      unfold classifyRel emitGroups at hpr ⊢
      rw [p1] at hpr
      refine ⟨a :: as, rfl, by simp, (Option.some.inj hpr).symm, ?_⟩
      exact p2

/-- C6: the entry an extraction emits for a sub-type `ty` under a
relationship type is the 2×M index array of exactly that sub-type's
classified group: `items` below is forced to be the group the
classification pass (`groupedOf`, lines 191-197) stored for `ty`, in
classification order; row 0 is its source-id sequence, row 1 its aligned
destination-id sequence, and the parallel attribute entry its property
sequence, all of the same length M = items.length. -/
theorem C6_index_shape_and_alignment (relationships : Schema) (store : Store)
    (seeds : List Nat) (paths : List Path) (s : Snapshot)
    (rt : String) (triples : List RawEdge) (rel_def : List (String × SubDef))
    (ty : String) (m : EdgeIdx) (pr : List Nat × List Nat)
    (hseed : store.seedResult = .ok seeds) (hne : seeds ≠ [])
    (hexp : store.expandResult = .ok paths)
    (h : retrieve_subgraph relationships store = .ok s)
    (htmp : (rt, triples) ∈ (processPaths paths).2)
    (hdef : alookup relationships rt = some rel_def)
    (hnd : (rel_def.map Prod.fst).Nodup)
    (hm : alookup s.edges_indices rt = some m)
    (hpr : alookup m ty = some pr) :
    ∃ items : List (Nat × Nat × Props),
      alookup (groupedOf rel_def triples) ty = some items
      ∧ items ≠ []
      ∧ pr.1 = items.map (fun it => it.1)
      ∧ pr.2 = items.map (fun it => it.2.1)
      ∧ pr.1.length = items.length
      ∧ pr.2.length = items.length
      ∧ ∃ am, alookup s.edges_attributes rt = some am
          ∧ alookup am ty = some (items.map (fun it => it.2.2))
          ∧ (items.map (fun it => it.2.2)).length = items.length := by
  simp only [retrieve_subgraph, hseed] at h
  have hemp : ¬seeds.isEmpty = true := by
    cases seeds with
    | nil => exact absurd rfl hne
    | cons a as => simp
  rw [if_neg hemp] at h
  simp only [hexp] at h
  cases hcls : classifyAll relationships (processPaths paths).2 ([], []) with
  | error e =>
    simp only [hcls] at h
    cases h
  | ok r =>
    simp only [hcls] at h
    obtain rfl := (Except.ok.inj h).symm
    obtain ⟨h1, h2⟩ := classifyAll_entry relationships (processPaths paths).2 ([], []) r
      (nodupKeys_processPaths paths) hcls rt triples rel_def htmp hdef
    rw [h1] at hm
    obtain rfl := (Option.some.inj hm).symm
    obtain ⟨items, hgr, hitems, hpr2, hatt⟩ :=
      classifyRel_entry_is_group rel_def triples ty pr hnd hpr
    subst hpr2
    exact ⟨items, hgr, hitems, rfl, rfl, by simp, by simp,
      (classifyRel rel_def triples).2, h2, hatt, by simp⟩

/-- C6 witness: at a concrete extraction, the emitted entry for sub-type
`"t"` is exactly the 2×M image of its classified group. -/
theorem C6_index_shape_and_alignment_witness :
    (retrieve_subgraph wSchema wStoreNoRev = .ok wSnapFwd
      ∧ ("R", [wEdgeFwd]) ∈ (processPaths [wPathFwd]).2
      ∧ alookup wSchema "R" = some [("t", ⟨"A", "B"⟩)]
      ∧ alookup wSnapFwd.edges_indices "R" = some [("t", ([1], [2]))]
      ∧ alookup [("t", (([1], [2]) : List Nat × List Nat))] "t" = some ([1], [2]))
    ∧ ∃ items : List (Nat × Nat × Props),
        alookup (groupedOf [("t", ⟨"A", "B"⟩)] [wEdgeFwd]) "t" = some items
        ∧ items ≠ []
        ∧ (([1], [2]) : List Nat × List Nat).1 = items.map (fun it => it.1)
        ∧ (([1], [2]) : List Nat × List Nat).2 = items.map (fun it => it.2.1)
        ∧ (([1], [2]) : List Nat × List Nat).1.length = items.length
        ∧ (([1], [2]) : List Nat × List Nat).2.length = items.length
        ∧ ∃ am, alookup wSnapFwd.edges_attributes "R" = some am
            ∧ alookup am "t" = some (items.map (fun it => it.2.2))
            ∧ (items.map (fun it => it.2.2)).length = items.length :=
  ⟨⟨rfl, by decide, by decide, by decide, by decide⟩,
    C6_index_shape_and_alignment wSchema wStoreNoRev [1] [wPathFwd] wSnapFwd "R" [wEdgeFwd]
      [("t", ⟨"A", "B"⟩)] "t" [("t", ([1], [2]))] ([1], [2]) rfl (by decide) rfl rfl
      (by decide) (by decide) (by decide) (by decide) (by decide)⟩

/-- C7: a sub-type declared in the schema whose classified group is empty
is omitted entirely from the extraction output: its key is absent from
both the edge-index map and the edge-attribute map of its relationship
type (rather than present with an empty array). -/
theorem C7_empty_sub_types_omitted (relationships : Schema) (store : Store)
    (seeds : List Nat) (paths : List Path) (s : Snapshot)
    (rt : String) (triples : List RawEdge) (rel_def : List (String × SubDef)) (ty : String)
    (hseed : store.seedResult = .ok seeds) (hne : seeds ≠ [])
    (hexp : store.expandResult = .ok paths)
    (h : retrieve_subgraph relationships store = .ok s)
    (htmp : (rt, triples) ∈ (processPaths paths).2)
    (hdef : alookup relationships rt = some rel_def)
    (hnd : (rel_def.map Prod.fst).Nodup)
    (hgrp : alookup (groupedOf rel_def triples) ty = some []) :
    ∃ m am, alookup s.edges_indices rt = some m ∧ alookup s.edges_attributes rt = some am
      ∧ alookup m ty = none ∧ alookup am ty = none := by
  simp only [retrieve_subgraph, hseed] at h
  have hemp : ¬seeds.isEmpty = true := by
    cases seeds with
    | nil => exact absurd rfl hne
    | cons a as => simp
  rw [if_neg hemp] at h
  simp only [hexp] at h
  cases hcls : classifyAll relationships (processPaths paths).2 ([], []) with
  | error e =>
    simp only [hcls] at h
    cases h
  | ok r =>
    simp only [hcls] at h
    obtain rfl := (Except.ok.inj h).symm
    obtain ⟨h1, h2⟩ := classifyAll_entry relationships (processPaths paths).2 ([], []) r
      (nodupKeys_processPaths paths) hcls rt triples rel_def htmp hdef
    obtain ⟨ha, hb⟩ := classifyRel_absent rel_def triples ty hnd hgrp
    exact ⟨(classifyRel rel_def triples).1, (classifyRel rel_def triples).2, h1, h2, ha, hb⟩

/-- C7 witness: the declared-but-empty sub-type `"tz"` is absent from
both emitted maps at a concrete extraction. -/
theorem C7_empty_sub_types_omitted_witness :
    (retrieve_subgraph wSchemaTz wStoreTz = .ok wSnapFwd
      ∧ ("R", [wEdgeFwd]) ∈ (processPaths [wPathFwd]).2
      ∧ alookup wSchemaTz "R" = some [("t", ⟨"A", "B"⟩), ("tz", ⟨"X", "Y"⟩)]
      ∧ alookup (groupedOf [("t", ⟨"A", "B"⟩), ("tz", ⟨"X", "Y"⟩)] [wEdgeFwd]) "tz" = some [])
    ∧ ∃ m am, alookup wSnapFwd.edges_indices "R" = some m
        ∧ alookup wSnapFwd.edges_attributes "R" = some am
        ∧ alookup m "tz" = none ∧ alookup am "tz" = none :=
  ⟨⟨rfl, by decide, by decide, by decide⟩,
    C7_empty_sub_types_omitted wSchemaTz wStoreTz [1] [wPathFwd] wSnapFwd "R" [wEdgeFwd]
      [("t", ⟨"A", "B"⟩), ("tz", ⟨"X", "Y"⟩)] "tz" rfl (by decide) rfl rfl (by decide) rfl
      (by decide) (by decide)⟩

theorem dinsert_append_key {κ β : Type} [DecidableEq κ] (m : List (κ × β)) (key : κ) (c v : β)
    (h : alookup m key = none) : dinsert (m ++ [(key, c)]) key v = m ++ [(key, v)] := by
  induction m with
  | nil => simp [dinsert]
  | cons kv rest ih =>
    obtain ⟨k1, v1⟩ := kv
    by_cases hk : k1 = key
    · subst hk
      simp [alookup] at h
    · simp only [alookup, if_neg hk] at h
      simp [dinsert, hk, ih h]

theorem fetch_fold (store : EdgeStore) (key : String) (sub : List (String × SubDef)) :
    ∀ (accI : EIdxMap) (accA : EAttrMap) (cur : List (String × (List Nat × List Nat)))
      (curA : List (String × List Props)),
      alookup accI key = none → alookup accA key = none →
      (sub.map Prod.fst).Nodup →
      (∀ tv ∈ sub, alookup cur tv.1 = none ∧ alookup curA tv.1 = none) →
      sub.foldl (fetchStep store key) (accI ++ [(key, cur)], accA ++ [(key, curA)])
        = (accI ++ [(key, cur ++ sub.map
              (fun tv => (tv.1, (get_edges store tv.2.source key tv.2.target).1)))],
           accA ++ [(key, curA ++ sub.map
              (fun tv => (tv.1, (get_edges store tv.2.source key tv.2.target).2)))]) := by
  induction sub with
  | nil =>
    intro accI accA cur curA _ _ _ _
    simp
  | cons tv rest ih =>
    intro accI accA cur curA hI hA hnd hdisj
    simp only [List.map_cons, List.nodup_cons] at hnd
    have h0 := hdisj tv (List.mem_cons_self _ _)
    simp only [List.foldl_cons]
    have hstep : fetchStep store key (accI ++ [(key, cur)], accA ++ [(key, curA)]) tv
        = (accI ++ [(key, cur ++ [(tv.1, (get_edges store tv.2.source key tv.2.target).1)])],
           accA ++ [(key, curA ++ [(tv.1, (get_edges store tv.2.source key tv.2.target).2)])]) := by
      have e1 : alookup (accI ++ [(key, cur)]) key = some cur := alookup_append_self _ _ _ hI
      have e2 : alookup (accA ++ [(key, curA)]) key = some curA := alookup_append_self _ _ _ hA
      simp only [fetchStep, e1, e2, Option.getD_some]
      rw [dinsert_of_none _ _ _ h0.1, dinsert_of_none _ _ _ h0.2,
        dinsert_append_key _ _ _ _ hI, dinsert_append_key _ _ _ _ hA]
    rw [hstep]
    have hdisj' : ∀ tv' ∈ rest,
        alookup (cur ++ [(tv.1, (get_edges store tv.2.source key tv.2.target).1)]) tv'.1 = none
          ∧ alookup (curA ++ [(tv.1, (get_edges store tv.2.source key tv.2.target).2)]) tv'.1
              = none := by
      intro tv' hmem
      have hne : tv.1 ≠ tv'.1 := by
        intro hh
        exact hnd.1 (hh ▸ List.mem_map.mpr ⟨tv', hmem, rfl⟩)
      have hd := hdisj tv' (List.mem_cons_of_mem _ hmem)
      constructor
      · rw [alookup_append, hd.1]
        simp [alookup, hne]
      · rw [alookup_append, hd.2]
        simp [alookup, hne]
    rw [ih accI accA _ _ hI hA hnd.2 hdisj']
    simp

theorem retrieve_edges_fold (store : EdgeStore) (dict : Schema) :
    ∀ (accI : EIdxMap) (accA : EAttrMap),
      (dict.map Prod.fst).Nodup →
      (∀ kv ∈ dict, ((kv : String × List (String × SubDef)).2.map Prod.fst).Nodup) →
      (∀ kv ∈ dict, alookup accI kv.1 = none ∧ alookup accA kv.1 = none) →
      dict.foldl (relStep store) (accI, accA)
        = (accI ++ dict.map (fun kv => (kv.1, kv.2.map
              (fun tv => (tv.1, (get_edges store tv.2.source kv.1 tv.2.target).1)))),
           accA ++ dict.map (fun kv => (kv.1, kv.2.map
              (fun tv => (tv.1, (get_edges store tv.2.source kv.1 tv.2.target).2))))) := by
  induction dict with
  | nil =>
    intro accI accA _ _ _
    simp
  | cons kv rest ih =>
    intro accI accA hnd hinner hdisj
    obtain ⟨key, sub⟩ := kv
    simp only [List.map_cons, List.nodup_cons] at hnd
    have h0 := hdisj (key, sub) (List.mem_cons_self _ _)
    simp only [List.foldl_cons]
    have hstep : relStep store (accI, accA) (key, sub)
        = (accI ++ [(key, sub.map
              (fun tv => (tv.1, (get_edges store tv.2.source key tv.2.target).1)))],
           accA ++ [(key, sub.map
              (fun tv => (tv.1, (get_edges store tv.2.source key tv.2.target).2)))]) := by
      unfold relStep
      rw [show (dinsert accI key ([] : List (String × (List Nat × List Nat))),
            dinsert accA key ([] : List (String × List Props)))
          = ((accI ++ [(key, [])] : EIdxMap), (accA ++ [(key, [])] : EAttrMap)) from by
        rw [dinsert_of_none _ _ _ h0.1, dinsert_of_none _ _ _ h0.2]]
      rw [fetch_fold store key sub accI accA [] [] h0.1 h0.2
        (hinner (key, sub) (List.mem_cons_self _ _)) (fun tv _ => ⟨rfl, rfl⟩)]
      simp
    rw [hstep]
    have hdisj' : ∀ kv' ∈ rest,
        alookup (accI ++ [(key, sub.map
            (fun tv => (tv.1, (get_edges store tv.2.source key tv.2.target).1)))])
          (kv' : String × List (String × SubDef)).1 = none
        ∧ alookup (accA ++ [(key, sub.map
            (fun tv => (tv.1, (get_edges store tv.2.source key tv.2.target).2)))]) kv'.1
            = none := by
      intro kv' hmem
      have hne : key ≠ kv'.1 := by
        intro hh
        exact hnd.1 (hh ▸ List.mem_map.mpr ⟨kv', hmem, rfl⟩)
      have hd := hdisj kv' (List.mem_cons_of_mem _ hmem)
      constructor
      · rw [alookup_append, hd.1]
        simp [alookup, hne]
      · rw [alookup_append, hd.2]
        simp [alookup, hne]
    rw [ih _ _ hnd.2 (fun kv' hmem => hinner kv' (List.mem_cons_of_mem _ hmem)) hdisj']
    simp

/-- C10: unlike the subgraph extraction, `retrieve_edges` emits an entry
for every (relationship type, sub-type) pair of the caller's declaration,
including pairs for which the store returns zero edges: its two output
mappings have exactly the declaration's key structure, each leaf being
the (possibly empty) result of `get_edges` for that pair. -/
theorem C10_retrieve_edges_mirrors_declaration (store : EdgeStore)
    (relationship_dict : Schema)
    (h1 : (relationship_dict.map Prod.fst).Nodup)
    (h2 : ∀ kv ∈ relationship_dict,
      ((kv : String × List (String × SubDef)).2.map Prod.fst).Nodup) :
    retrieve_edges store relationship_dict
      = (relationship_dict.map (fun kv => (kv.1, kv.2.map
            (fun tv => (tv.1, (get_edges store tv.2.source kv.1 tv.2.target).1)))),
         relationship_dict.map (fun kv => (kv.1, kv.2.map
            (fun tv => (tv.1, (get_edges store tv.2.source kv.1 tv.2.target).2))))) := by
  unfold retrieve_edges
  rw [retrieve_edges_fold store relationship_dict [] [] h1 h2 (fun kv _ => ⟨rfl, rfl⟩)]
  simp

/-- C10 witness: the mirror property at a concrete declaration containing
a sub-type with zero matching edges. -/
theorem C10_retrieve_edges_mirrors_declaration_witness :
    ((wRelDict.map Prod.fst).Nodup
      ∧ (∀ kv ∈ wRelDict, ((kv : String × List (String × SubDef)).2.map Prod.fst).Nodup))
    ∧ retrieve_edges wEdgeStore wRelDict
      = (wRelDict.map (fun kv => (kv.1, kv.2.map
            (fun tv => (tv.1, (get_edges wEdgeStore tv.2.source kv.1 tv.2.target).1)))),
         wRelDict.map (fun kv => (kv.1, kv.2.map
            (fun tv => (tv.1, (get_edges wEdgeStore tv.2.source kv.1 tv.2.target).2))))) :=
  ⟨⟨by decide, by decide⟩,
    C10_retrieve_edges_mirrors_declaration wEdgeStore wRelDict (by decide) (by decide)⟩

/-- C5: if the seed filter query matches no nodes, `retrieve_subgraph`
returns the empty snapshot `({}, {}, {}, {})` without error, and — as the
universally quantified `exp` shows — without consulting the expansion
result at all: no expansion or classification work contributes to the
outcome. -/
theorem C5_empty_seeds (relationships : Schema) (exp : Except String (List Path)) :
    retrieve_subgraph relationships { seedResult := .ok [], expandResult := exp }
      = .ok ⟨[], [], [], []⟩ := rfl

/-- C9: a driver/protocol failure of either store query makes
`retrieve_subgraph` fail with `queryError`; since the result type is a sum
of one complete snapshot or one error, the caller never receives a
partially populated snapshot. -/
theorem C9_store_failure_aborts :
    (∀ (relationships : Schema) (e : String) (exp : Except String (List Path)),
        retrieve_subgraph relationships { seedResult := .error e, expandResult := exp }
          = .error (.queryError e))
    ∧ ∀ (relationships : Schema) (e : String) (seeds : List Nat), seeds ≠ [] →
        retrieve_subgraph relationships { seedResult := .ok seeds, expandResult := .error e }
          = .error (.queryError e) := by
  constructor
  · intro relationships e exp
    rfl
  · intro relationships e seeds hne
    cases seeds with
    | nil => exact absurd rfl hne
    | cons s rest => rfl

/-- C9 witness: both failure modes at concrete inputs. -/
theorem C9_store_failure_aborts_witness :
    ([(1 : Nat)] ≠ []) ∧
      retrieve_subgraph [] { seedResult := .ok [1], expandResult := .error "broken" }
        = .error (.queryError "broken") :=
  ⟨by decide, C9_store_failure_aborts.2 [] "broken" [1] (by decide)⟩

end Neo4J
